import Mathlib

/-!
Verification development for the semantic document store of the study-assistant
application: the chunker (`app/services/pdf_processor.py, chunk_text`) and the
vector store (`app/services/vector_store.py, VectorStore`).

The Python code is shallowly embedded: text is `List Char`, Python slices and
`str.rfind`/`str.strip` are modelled with their exact clamping semantics
(including negative indices), machine floats are idealised as real numbers,
dictionaries keyed by strings become functions `String → Option _`, and the
only effectful boundary (the embedding provider) is a function parameter.
-/

namespace StudyRAG

/-! ### Python string primitives -/

/-- Whitespace characters stripped by Python's `str.strip()` (ASCII subset:
space, tab, newline, carriage return, vertical tab, form feed). -/
def isPySpace (c : Char) : Bool :=
  c == ' ' || c == '\t' || c == '\n' || c == '\r' || c == Char.ofNat 11 || c == Char.ofNat 12

/-- Python `str.strip()`: drop leading and trailing whitespace. -/
def pyStrip (l : List Char) : List Char :=
  ((l.dropWhile isPySpace).reverse.dropWhile isPySpace).reverse

/-- Clamp one slice endpoint the way Python does: a negative index counts from
the end (and clamps at 0), a non-negative index clamps at the length. -/
def pyIdx (n : Nat) (i : Int) : Nat :=
  if i < 0 then ((n : Int) + i).toNat else min i.toNat n

/-- Python slice `l[a:b]` with full negative-index and clamping semantics. -/
def pySlice (l : List Char) (a b : Int) : List Char :=
  (l.take (pyIdx l.length b)).drop (pyIdx l.length a)

/-- Python `s.rfind(sub)`: the largest index `i` with `s[i:i+len(sub)] == sub`,
`none` when there is no occurrence. -/
def rfind (sub l : List Char) : Option Nat :=
  (List.range (l.length + 1)).reverse.find? (fun i => (l.drop i).take sub.length == sub)

/-! ### chunk_text (pdf_processor.py lines 24-52) -/

/-- The chunk record built by `chunk_text`: keys `text`, `start_char`,
`end_char`, `chunk_index`. Offsets are `Int` because the Python loop variable
`start` can become negative. -/
structure Chunk where
  text : List Char
  start_char : Int
  end_char : Int
  chunk_index : Nat
deriving DecidableEq

/-- The separators tried in order by `chunk_text`: `'. '`, `'.\n'`, `'\n\n'`. -/
def sepList : List (List Char) := [['.', ' '], ['.', '\n'], ['\n', '\n']]

/-- The `for sep in [...]` loop of `chunk_text`: the first separator (in
priority order) with an occurrence wins, yielding its `rfind` position and the
separator length. -/
def findSep : List (List Char) → List Char → Option (Nat × Nat)
  | [], _ => none
  | s :: rest, w =>
    match rfind s w with
    | some i => some (i, s.length)
    | none => findSep rest w

/-- The end offset chosen for the window starting at `start`: the naive end
`start + chunk_size`, moved back to just past the last separator found in
`text[start:end]` when the naive end is still inside the text. -/
def chunkEnd (text : List Char) (cs : Nat) (start : Int) : Int :=
  if start + (cs : Int) < (text.length : Int) then
    match findSep sepList (pySlice text start (start + (cs : Int))) with
    | some p => start + (p.1 : Int) + (p.2 : Int)
    | none => start + (cs : Int)
  else start + (cs : Int)

/-- The `while start < text_length` loop of `chunk_text`, with explicit fuel
(the Python loop has no termination guarantee). One iteration: compute the
window end, emit the stripped window when non-empty, then advance
`start := end - overlap` (or to the text length when the end reached it). -/
def chunkLoop (text : List Char) (cs ov : Nat) : Nat → Int → List Chunk → Option (List Chunk)
  | 0, _, _ => none
  | fuel + 1, start, acc =>
    if start < (text.length : Int) then
      let e := chunkEnd text cs start
      let content := pyStrip (pySlice text start e)
      let acc' := if content = [] then acc else acc ++ [⟨content, start, e, acc.length⟩]
      let start' := if e < (text.length : Int) then e - (ov : Int) else (text.length : Int)
      chunkLoop text cs ov fuel start' acc'
    else some acc

/-- `chunk_text(text, chunk_size, overlap)`. The fuel `text.length + 2` is
sufficient whenever the loop makes progress of at least one character per
iteration; `none` reports that the source loop does not terminate within that
budget. -/
def chunk_text (text : List Char) (cs ov : Nat) : Option (List Chunk) :=
  chunkLoop text cs ov (text.length + 2) 0 []

/-! ### C1: non-termination witness -/

/-- Input on which `chunk_text`'s loop never terminates: the window `"\n\nx"`
ends at the `'\n\n'` separator found at offset 0, the stripped window is empty,
and `start` is reset to `end - overlap = 0`. -/
def nontermText : List Char := ['\n', '\n', 'x', 'x', 'x']



/-! ### VectorStore data model (vector_store.py) -/

/-- The metadata dictionary stored per chunk: keys `document_id` (stringified),
`filename`, `subject`, `chunk_index`. -/
structure ChunkMeta where
  document_id : String
  filename : String
  subject : String
  chunk_index : Nat
deriving DecidableEq

/-- A collection: the four parallel arrays `ids`, `documents`, `embeddings`,
`metadatas`. Floats are idealised as real numbers. -/
structure Collection where
  ids : List String
  documents : List (List Char)
  embeddings : List (List ℝ)
  metadatas : List ChunkMeta

/-- The fresh collection created by `get_or_create_collection`. -/
def emptyCollection : Collection := ⟨[], [], [], []⟩

/-- `self.collections`: a dictionary from collection name to collection. -/
abbrev Store := String → Option Collection

/-- Dictionary assignment `self.collections[name] = col`. -/
def updateStore (s : Store) (k : String) (c : Collection) : Store :=
  fun n => if n = k then some c else s n

/-- `f"user_{user_id}_{collection_name}"` with the fixed default name. -/
def collectionName (u : Nat) : String := "user_" ++ toString u ++ "_study_notes"

/-- `get_or_create_collection` (lines 73-86): idempotent creation. Returns the
full name and the (possibly extended) store. -/
def getOrCreateCollection (s : Store) (u : Nat) : String × Store :=
  match s (collectionName u) with
  | some _ => (collectionName u, s)
  | none => (collectionName u, updateStore s (collectionName u) emptyCollection)

/-- `sum(a * b for a, b in zip(vec1, vec2))`. -/
def dotProduct (v1 v2 : List ℝ) : ℝ := ((v1.zip v2).map (fun p => p.1 * p.2)).sum

/-- `sum(a * a for a in vec) ** 0.5`; the base is a sum of squares, hence
non-negative, so `** 0.5` is the real square root. -/
noncomputable def normVal (v : List ℝ) : ℝ := Real.sqrt ((v.map (fun a => a * a)).sum)

/-- `_cosine_similarity` (lines 62-71): `0.0` on mismatched lengths, `0.0` when
either norm is zero, otherwise `dot / (norm1 * norm2)`. -/
noncomputable def cosineSimilarity (v1 v2 : List ℝ) : ℝ :=
  if v1.length ≠ v2.length then 0
  else if normVal v1 = 0 ∨ normVal v2 = 0 then 0
  else dotProduct v1 v2 / (normVal v1 * normVal v2)

/-- `f"doc_{document_id}_chunk_{chunk['chunk_index']}"`. -/
def chunkId (docId : Nat) (c : Chunk) : String :=
  "doc_" ++ toString docId ++ "_chunk_" ++ toString c.chunk_index

/-- Python `subject or 'general'`: `None` and the empty string are falsy. -/
def subjectOr : Option String → String
  | none => "general"
  | some s => if s = "" then "general" else s

/-- The per-chunk loop of `add_document_chunks` (lines 96-114), unrolled as
structural recursion over the chunk list: skip ids already present, otherwise
embed the text and append to all four arrays. -/
def addChunksCol (embed : List Char → List ℝ) (docId : Nat) :
    List Chunk → String → Option String → Collection → Collection
  | [], _, _, col => col
  | c :: rest, filename, subject, col =>
      addChunksCol embed docId rest filename subject
        (if chunkId docId c ∈ col.ids then col
         else
          { ids := col.ids ++ [chunkId docId c]
            documents := col.documents ++ [c.text]
            embeddings := col.embeddings ++ [embed c.text]
            metadatas :=
              col.metadatas ++ [⟨toString docId, filename, subjectOr subject, c.chunk_index⟩] })

/-- `add_document_chunks` (lines 88-117): note the return value is
`len(chunks)`, computed from the argument, not from the number of appends. -/
def addDocumentChunks (embed : List Char → List ℝ) (s : Store) (u docId : Nat)
    (chunks : List Chunk) (filename : String) (subject : Option String) : Store × Nat :=
  let r := getOrCreateCollection s u
  let col := (r.2 r.1).getD emptyCollection
  (updateStore r.2 r.1 (addChunksCol embed docId chunks filename subject col), chunks.length)

/-- The same per-chunk loop with a fallible embedding call: `none` models
`_get_embedding` raising. The exception propagates out of the loop (there is no
`try` in `add_document_chunks`), so the state keeps every chunk fully appended
before the failure and nothing of the failing chunk — the embedding is computed
before the first of the four appends. -/
def addChunksColExc (embed : List Char → Option (List ℝ)) (docId : Nat) :
    List Chunk → String → Option String → Collection → Collection
  | [], _, _, col => col
  | c :: rest, filename, subject, col =>
    if chunkId docId c ∈ col.ids then addChunksColExc embed docId rest filename subject col
    else
      match embed c.text with
      | none => col
      | some v =>
          addChunksColExc embed docId rest filename subject
            { ids := col.ids ++ [chunkId docId c]
              documents := col.documents ++ [c.text]
              embeddings := col.embeddings ++ [v]
              metadatas := col.metadatas ++ [⟨toString docId, filename, subjectOr subject, c.chunk_index⟩] }

/-- The index-collection loop of `delete_document` (lines 174-177): ascending
indices of the metadata entries satisfying the predicate. -/
def idxsWhere (p : ChunkMeta → Bool) : List ChunkMeta → List Nat
  | [] => []
  | m :: ms => if p m then 0 :: (idxsWhere p ms).map (· + 1) else (idxsWhere p ms).map (· + 1)

/-- `for i in reversed(indices): arr.pop(i)` — `idxs` is ascending, so the
right fold removes the largest index first, exactly as the source loop. -/
def removeDescIdx (l : List α) (idxs : List Nat) : List α :=
  idxs.foldr (fun i acc => acc.eraseIdx i) l

/-- `metadata.get("document_id") == str(document_id)`. -/
def matchesDoc (docId : Nat) (m : ChunkMeta) : Bool := m.document_id == toString docId

/-- The body of `delete_document` (lines 172-189) on one collection: collect
matching indices, pop them from all four arrays in descending order, return
`True` (the pure model cannot raise, so the `except` branch returning `False`
is unreachable). -/
def deleteDocumentCol (col : Collection) (docId : Nat) : Collection × Bool :=
  let idxs := idxsWhere (matchesDoc docId) col.metadatas
  (⟨removeDescIdx col.ids idxs, removeDescIdx col.documents idxs,
    removeDescIdx col.embeddings idxs, removeDescIdx col.metadatas idxs⟩, true)

/-- `delete_document` (lines 167-189) at the store level. -/
def deleteDocument (s : Store) (u docId : Nat) : Store × Bool :=
  let r := getOrCreateCollection s u
  let d := deleteDocumentCol ((r.2 r.1).getD emptyCollection) docId
  (updateStore r.2 r.1 d.1, d.2)

/-- `get_collection_stats` (lines 191-198): `total_chunks` is the length of
the `documents` array. -/
def totalChunks (col : Collection) : Nat := col.documents.length

/-- Store-level `get_collection_stats`: only `get_or_create_collection`
mutates the store. -/
def getCollectionStats (s : Store) (u : Nat) : Store × Nat :=
  let r := getOrCreateCollection s u
  (r.2, totalChunks ((r.2 r.1).getD emptyCollection))

/-! ### search (vector_store.py lines 119-165) -/

/-- One entry of the `similarities` list: `{index, similarity, text, metadata}`. -/
structure Cand where
  index : Nat
  similarity : ℝ
  text : List Char
  metadata : ChunkMeta

/-- One formatted result: `{text, metadata, distance, relevance_score}`. -/
structure SearchResult where
  text : List Char
  metadata : ChunkMeta
  distance : ℝ
  relevance_score : ℝ

/-- Python truthiness of the `subject_filter` argument: `None` and `""` are
falsy, so an empty-string filter is not applied. -/
def pyTruthy : Option String → Bool
  | none => false
  | some s => !(s == "")

/-- One iteration of the candidate loop, at index `i`: skip (`none`) when the
subject filter is set and the entry's `subject` metadata differs, otherwise
produce the `{index, similarity, text, metadata}` record. `metadatas[i]` and
`documents[i]` are positional accesses (modelled with `getD`; under the
equal-length invariant the defaults are never reached). -/
noncomputable def candAt (q : List ℝ) (col : Collection) (subjF : Option String) (i : Nat) :
    Option Cand :=
  if pyTruthy subjF && !((col.metadatas.getD i ⟨"", "", "", 0⟩).subject == subjF.getD "") then none
  else
    some ⟨i, cosineSimilarity q (col.embeddings.getD i []), col.documents.getD i [],
      col.metadatas.getD i ⟨"", "", "", 0⟩⟩

/-- The candidate loop: `for i, doc_embedding in enumerate(collection["embeddings"])`,
collecting the surviving scored entries in index order. -/
noncomputable def candidatesFor (q : List ℝ) (col : Collection) (subjF : Option String) :
    List Cand :=
  (List.range col.embeddings.length).filterMap (candAt q col subjF)

/-- Stable insertion of a candidate into a descending-sorted list: walk past
strictly-more-similar entries, stop at the first entry not more similar, so an
equal-similarity entry already in the list, which came earlier in the input,
stays in front. -/
noncomputable def insertDesc (x : Cand) : List Cand → List Cand
  | [] => [x]
  | y :: ys => if x.similarity < y.similarity then y :: insertDesc x ys else x :: y :: ys

/-- `similarities.sort(key=lambda x: x['similarity'], reverse=True)`: Python's
sort is a stable descending sort, and a stable sort is uniquely determined by
being a permutation, sorted, and stable, so it is modelled by stable insertion
sort on the similarity key (folding from the right keeps earlier input entries
in front of equal-similarity later ones). -/
noncomputable def sortDesc : List Cand → List Cand
  | [] => []
  | x :: xs => insertDesc x (sortDesc xs)

/-- The sorted `similarities` list of `search`. -/
noncomputable def rankedCandidates (q : List ℝ) (col : Collection) (subjF : Option String) :
    List Cand :=
  sortDesc (candidatesFor q col subjF)

/-- The formatting loop: `distance = 1 - similarity`,
`relevance_score = similarity`. -/
def formatResult (c : Cand) : SearchResult := ⟨c.text, c.metadata, 1 - c.similarity, c.similarity⟩

/-- `search` on one collection: an empty `documents` array short-circuits to
`[]`; the query-embedding argument is an `Option` — `none` models the
`_get_embedding` call raising inside the `try`, which the
`except Exception: return []` handler answers with the empty list. -/
noncomputable def search : Option (List ℝ) → Collection → Nat → Option String → List SearchResult
  | none, col, _, _ => if col.documents.isEmpty then [] else []
  | some q, col, n, subjF =>
      if col.documents.isEmpty then []
      else ((rankedCandidates q col subjF).take n).map formatResult

/-- Store-level `search`: `get_or_create_collection` first (which may create an
empty collection), then the collection-level search with a total embedding
provider, as in the source where `_get_embedding` catches its own errors. -/
noncomputable def searchStore (embed : List Char → List ℝ) (s : Store) (u : Nat) (q : List Char)
    (n : Nat) (subjF : Option String) : List SearchResult × Store :=
  let r := getOrCreateCollection s u
  (search (some (embed q)) ((r.2 r.1).getD emptyCollection) n subjF, r.2)

/-- The spec's equal-length invariant on the four parallel arrays. -/
def WF (col : Collection) : Prop :=
  col.ids.length = col.documents.length ∧ col.documents.length = col.embeddings.length ∧
    col.embeddings.length = col.metadatas.length

/-- Every collection present in the store satisfies the invariant. -/
def WFStore (s : Store) : Prop := ∀ nm col, s nm = some col → WF col

/-! ### Specification predicates and concrete instances -/

/-- Whether the text contains an occurrence of any of the separators, at any
position. -/
def containsSep (text : List Char) : Bool :=
  (List.range (text.length + 1)).any (fun i => sepList.any (fun s => (text.drop i).take s.length == s))

/-- Shape of every window emitted for a separator-free text: the span is
exactly `[start, start + chunk_size)`, starts at a non-negative offset that is
a multiple of the stride `chunk_size − overlap` (hence adjacent windows share
exactly `overlap` positions). -/
def goodChunk (cs ov : Nat) (c : Chunk) : Prop :=
  c.end_char = c.start_char + (cs : Int) ∧ 0 ≤ c.start_char ∧ (cs - ov) ∣ c.start_char.toNat

/-- Every non-whitespace character position of the text lies inside the
`[start_char, end_char)` span of some emitted chunk. -/
def coversNonSpace (text : List Char) (chunks : List Chunk) : Prop :=
  ∀ p : Nat, p < text.length → ¬isPySpace (text.getD p ' ') →
    ∃ c ∈ chunks, c.start_char ≤ (p : Int) ∧ (p : Int) < c.end_char

/-- The strict order realised by the stable descending sort on inputs with
strictly increasing indices: higher similarity first, ties by lower index
(insertion order) first. -/
def candRel (a b : Cand) : Prop :=
  b.similarity < a.similarity ∨ (b.similarity = a.similarity ∧ a.index < b.index)

/-- What C7 claims of `delete_document` on a collection: it reports success,
no surviving metadata entry carries the deleted document's id, the chunk count
drops by exactly the number of matching entries, and each of the four arrays
keeps exactly (and in order) the entries whose metadata does not match. -/
def delSpec (col : Collection) (docId : Nat) : Prop :=
  (deleteDocumentCol col docId).2 = true ∧
  List.Forall (fun m : ChunkMeta => m.document_id ≠ toString docId)
    (deleteDocumentCol col docId).1.metadatas ∧
  totalChunks (deleteDocumentCol col docId).1 +
      (col.metadatas.filter (matchesDoc docId)).length = totalChunks col ∧
  (deleteDocumentCol col docId).1.metadatas =
    col.metadatas.filter (fun m => !matchesDoc docId m) ∧
  (deleteDocumentCol col docId).1.ids =
    ((col.ids.zip col.metadatas).filter (fun q => !matchesDoc docId q.2)).map Prod.fst ∧
  (deleteDocumentCol col docId).1.documents =
    ((col.documents.zip col.metadatas).filter (fun q => !matchesDoc docId q.2)).map Prod.fst ∧
  (deleteDocumentCol col docId).1.embeddings =
    ((col.embeddings.zip col.metadatas).filter (fun q => !matchesDoc docId q.2)).map Prod.fst

/-- A fixed embedding provider for concrete scenarios. -/
def embed0 : List Char → List ℝ := fun _ => [1]

/-- A one-chunk input list. -/
def chunks0 : List Chunk := [⟨['h', 'i'], 0, 2, 0⟩]

/-- The empty store. -/
def store0 : Store := fun _ => none

/-- The store after ingesting `chunks0` once for tenant 1, document 1. -/
def store1 : Store := (addDocumentChunks embed0 store0 1 1 chunks0 "f" none).1

/-- A concrete two-entry collection: one chunk of document 1, one of
document 2. -/
def col2 : Collection :=
  ⟨["doc_1_chunk_0", "doc_2_chunk_0"], [['a'], ['b']], [[1], [2]],
    [⟨"1", "f", "general", 0⟩, ⟨"2", "g", "general", 0⟩]⟩

/-- The text of the C4 counterexample: an all-whitespace middle window. -/
def gapText : List Char := ['a', 'b', ' ', ' ', 'c', 'd']

/-- A separator-free text for the C4 witness. -/
def abcdText : List Char := ['a', 'b', 'c', 'd']

/-! ### C1: non-termination of chunk_text -/

theorem chunkLoop_nonterm_step (fuel : Nat) (acc : List Chunk) :
    chunkLoop nontermText 3 2 (fuel + 1) 0 acc = chunkLoop nontermText 3 2 fuel 0 acc := rfl

/-- C1: refuted — the claim that `chunk_text` terminates for every text and all
`target_size > 0`, `0 ≤ overlap < target_size` is false. On the text
`"\n\nxxx"` with `target_size = 3`, `overlap = 2` (which satisfy the claimed
constraints) the loop revisits `start = 0` forever, so no amount of fuel makes
it return. -/
theorem chunk_text_c1_nonterminating :
    0 < 3 ∧ (2 : Nat) < 3 ∧ chunk_text nontermText 3 2 = none ∧
      ∀ fuel acc, chunkLoop nontermText 3 2 fuel 0 acc = none := by
  have key : ∀ fuel acc, chunkLoop nontermText 3 2 fuel 0 acc = none := by
    intro fuel
    induction fuel with
    | zero => intro acc; rfl
    | succ n ih =>
        intro acc
        rw [chunkLoop_nonterm_step]
        exact ih acc
  exact ⟨by decide, by decide, key _ [], key⟩

/-! ### Store helper lemmas -/

theorem updateStore_self (s : Store) (k : String) (c : Collection) :
    updateStore s k c k = some c := by simp [updateStore]

theorem updateStore_of_lookup {s : Store} {k : String} {c : Collection} (h : s k = some c) :
    updateStore s k c = s := by
  funext n
  unfold updateStore
  by_cases hn : n = k
  · subst hn; simp [h]
  · simp [hn]

theorem getOrCreate_fst (s : Store) (u : Nat) :
    (getOrCreateCollection s u).1 = collectionName u := by
  unfold getOrCreateCollection
  cases s (collectionName u) <;> rfl

theorem getOrCreate_lookup_some (s : Store) (u : Nat) :
    ∃ col, (getOrCreateCollection s u).2 (collectionName u) = some col := by
  unfold getOrCreateCollection
  cases h : s (collectionName u) with
  | none => exact ⟨emptyCollection, updateStore_self _ _ _⟩
  | some c => exact ⟨c, h⟩

theorem getOrCreate_of_some {s : Store} {u : Nat} {c : Collection}
    (h : s (collectionName u) = some c) : getOrCreateCollection s u = (collectionName u, s) := by
  unfold getOrCreateCollection
  rw [h]

/-- The store component produced by `add_document_chunks`. -/
theorem addDocumentChunks_fst (embed : List Char → List ℝ) (s : Store) (u docId : Nat)
    (chunks : List Chunk) (filename : String) (subject : Option String) :
    (addDocumentChunks embed s u docId chunks filename subject).1 =
      updateStore (getOrCreateCollection s u).2 (collectionName u)
        (addChunksCol embed docId chunks filename subject
          (((getOrCreateCollection s u).2 (collectionName u)).getD emptyCollection)) := by
  unfold addDocumentChunks
  simp only [getOrCreate_fst]

/-! ### C2: add_document_chunks returns len(chunks), not the inserted count -/



/-- C2, counterexample: after a first ingestion the collection holds exactly
one chunk; re-ingesting the same chunk list inserts nothing (the collection
still holds one chunk), yet the call returns `1`, not the `0` the claim
demands for a full re-ingestion. -/
theorem add_chunks_c2_counterexample :
    ((store1 (collectionName 1)).getD emptyCollection).ids.length = 1 ∧
    (addDocumentChunks embed0 store1 1 1 chunks0 "f" none).2 = 1 ∧
    (((addDocumentChunks embed0 store1 1 1 chunks0 "f" none).1 (collectionName 1)).getD
        emptyCollection).ids.length = 1 ∧
    (1 : Nat) ≠ 0 :=
  ⟨rfl, rfl, rfl, by decide⟩

/-- C2, amended: `add_document_chunks` always returns the total number of
chunks passed in (`len(chunks)`), counting skipped duplicates as well; in
particular re-ingesting an already-ingested document returns `len(chunks)`,
not the number actually inserted. -/
theorem add_chunks_c2_returns_input_length (embed : List Char → List ℝ) (s : Store)
    (u docId : Nat) (chunks : List Chunk) (filename : String) (subject : Option String) :
    (addDocumentChunks embed s u docId chunks filename subject).2 = chunks.length := rfl

/-! ### C8: idempotent re-ingestion -/

theorem mem_ids_addChunksCol {x : String} (embed : List Char → List ℝ) (docId : Nat)
    (chunks : List Chunk) (filename : String) (subject : Option String) (col : Collection)
    (hx : x ∈ col.ids) : x ∈ (addChunksCol embed docId chunks filename subject col).ids := by
  induction chunks generalizing col with
  | nil => exact hx
  | cons c rest ih =>
      rw [addChunksCol]
      by_cases h : chunkId docId c ∈ col.ids
      · rw [if_pos h]
        exact ih col hx
      · rw [if_neg h]
        exact ih _ (List.mem_append_left _ hx)

theorem chunkId_mem_addChunksCol (embed : List Char → List ℝ) (docId : Nat)
    (chunks : List Chunk) (filename : String) (subject : Option String) (col : Collection) :
    ∀ c ∈ chunks, chunkId docId c ∈ (addChunksCol embed docId chunks filename subject col).ids := by
  induction chunks generalizing col with
  | nil => intro c hc; exact absurd hc (List.not_mem_nil c)
  | cons c rest ih =>
      intro c' hc'
      rw [addChunksCol]
      rcases List.mem_cons.mp hc' with heq | hmem
      · subst heq
        by_cases h : chunkId docId c' ∈ col.ids
        · rw [if_pos h]
          exact mem_ids_addChunksCol embed docId rest filename subject col h
        · rw [if_neg h]
          exact mem_ids_addChunksCol embed docId rest filename subject _
            (List.mem_append_right _ (List.mem_singleton.mpr rfl))
      · by_cases h : chunkId docId c ∈ col.ids
        · rw [if_pos h]; exact ih col c' hmem
        · rw [if_neg h]; exact ih _ c' hmem

theorem addChunksCol_skip_all (embed : List Char → List ℝ) (docId : Nat)
    (chunks : List Chunk) (filename : String) (subject : Option String) (col : Collection)
    (h : ∀ c ∈ chunks, chunkId docId c ∈ col.ids) :
    addChunksCol embed docId chunks filename subject col = col := by
  induction chunks with
  | nil => rfl
  | cons c rest ih =>
      rw [addChunksCol, if_pos (h c (List.mem_cons_self c rest))]
      exact ih fun c' hc' => h c' (List.mem_cons_of_mem c hc')

/-- C8: confirmed — re-ingesting the same document's chunk list is a no-op on
the stored state: after the first call every derived id is present in the
collection, so the second call skips every chunk and leaves the store
unchanged. -/
theorem add_chunks_c8_idempotent (embed : List Char → List ℝ) (s : Store) (u docId : Nat)
    (chunks : List Chunk) (filename : String) (subject : Option String) :
    List.Forall
      (fun c => chunkId docId c ∈
        (((addDocumentChunks embed s u docId chunks filename subject).1
            (collectionName u)).getD emptyCollection).ids)
      chunks ∧
    (addDocumentChunks embed
        (addDocumentChunks embed s u docId chunks filename subject).1
        u docId chunks filename subject).1 =
      (addDocumentChunks embed s u docId chunks filename subject).1 := by
  have hlook : (addDocumentChunks embed s u docId chunks filename subject).1 (collectionName u) =
      some (addChunksCol embed docId chunks filename subject
        (((getOrCreateCollection s u).2 (collectionName u)).getD emptyCollection)) := by
    rw [addDocumentChunks_fst]
    exact updateStore_self _ _ _
  constructor
  · rw [List.forall_iff_forall_mem]
    intro c hc
    rw [hlook, Option.getD_some]
    exact chunkId_mem_addChunksCol embed docId chunks filename subject _ c hc
  · have h2 : (getOrCreateCollection
          (addDocumentChunks embed s u docId chunks filename subject).1 u).2 =
        (addDocumentChunks embed s u docId chunks filename subject).1 := by
      rw [getOrCreate_of_some hlook]
    rw [addDocumentChunks_fst embed (addDocumentChunks embed s u docId chunks filename subject).1
      u docId chunks filename subject, h2, hlook, Option.getD_some,
      addChunksCol_skip_all embed docId chunks filename subject _
        (chunkId_mem_addChunksCol embed docId chunks filename subject _),
      updateStore_of_lookup hlook]

/-! ### C7: delete_document removes exactly the matching entries -/

theorem removeDescIdx_nil (l : List α) : removeDescIdx l [] = l := rfl

theorem removeDescIdx_cons (l : List α) (i : Nat) (idxs : List Nat) :
    removeDescIdx l (i :: idxs) = (removeDescIdx l idxs).eraseIdx i := rfl

theorem removeDescIdx_map_succ (x : α) (xs : List α) (idxs : List Nat) :
    removeDescIdx (x :: xs) (idxs.map (· + 1)) = x :: removeDescIdx xs idxs := by
  induction idxs with
  | nil => rfl
  | cons i rest ih =>
      rw [List.map_cons, removeDescIdx_cons, ih, List.eraseIdx_cons_succ, ← removeDescIdx_cons]

/-- Removing, in descending order, the ascending indices of the metadata
entries matched by `p` keeps exactly the entries of a parallel array whose
metadata does not match `p`. -/
theorem removeDescIdx_idxsWhere_zip (p : ChunkMeta → Bool) :
    ∀ (metas : List ChunkMeta) (l : List α), l.length = metas.length →
      removeDescIdx l (idxsWhere p metas) =
        ((l.zip metas).filter (fun q => !p q.2)).map Prod.fst := by
  intro metas
  induction metas with
  | nil =>
      intro l hl
      rw [List.length_nil, List.length_eq_zero] at hl
      subst hl
      rfl
  | cons m ms ih =>
      intro l hl
      match l with
      | x :: xs =>
          rw [List.length_cons, List.length_cons, Nat.succ_inj] at hl
          rw [idxsWhere]
          by_cases hp : p m
          · rw [if_pos hp, removeDescIdx_cons, removeDescIdx_map_succ, List.eraseIdx_cons_zero,
              ih xs hl, List.zip_cons_cons, List.filter_cons]
            simp [hp]
          · rw [if_neg hp, removeDescIdx_map_succ, ih xs hl, List.zip_cons_cons, List.filter_cons]
            simp [hp]

/-- Specialisation to the metadata array itself. -/
theorem removeDescIdx_idxsWhere_self (p : ChunkMeta → Bool) (metas : List ChunkMeta) :
    removeDescIdx metas (idxsWhere p metas) = metas.filter (fun m => !p m) := by
  induction metas with
  | nil => rfl
  | cons m ms ih =>
      rw [idxsWhere]
      by_cases hp : p m
      · rw [if_pos hp, removeDescIdx_cons, removeDescIdx_map_succ, List.eraseIdx_cons_zero, ih,
          List.filter_cons]
        simp [hp]
      · rw [if_neg hp, removeDescIdx_map_succ, ih, List.filter_cons]
        simp [hp]

theorem filter_zip_length (p : ChunkMeta → Bool) :
    ∀ (l : List α) (metas : List ChunkMeta), l.length = metas.length →
      (((l.zip metas).filter (fun q => !p q.2)).map Prod.fst).length =
        (metas.filter (fun m => !p m)).length := by
  intro l
  induction l with
  | nil =>
      intro metas h
      cases metas with
      | nil => rfl
      | cons m ms => simp at h
  | cons x xs ih =>
      intro metas h
      match metas with
      | m :: ms =>
          rw [List.length_cons, List.length_cons, Nat.succ_inj] at h
          rw [List.zip_cons_cons, List.filter_cons, List.filter_cons]
          by_cases hp : p m <;> simp [hp, ih ms h]

theorem length_filter_compl (p : ChunkMeta → Bool) (l : List ChunkMeta) :
    (l.filter (fun m => !p m)).length + (l.filter p).length = l.length := by
  induction l with
  | nil => rfl
  | cons m ms ih =>
      rw [List.filter_cons, List.filter_cons]
      by_cases hp : p m <;> simp [hp] <;> omega



/-- C7: confirmed — `delete_document` removes every entry whose metadata
`document_id` matches, in all four parallel arrays, leaves the other entries
unchanged and in order, decreases `total_chunks` by exactly the number of
matching entries, and returns `True`. -/
theorem delete_c7_spec (col : Collection) (docId : Nat) (hWF : WF col) : delSpec col docId := by
  obtain ⟨h1, h2, h3⟩ := hWF
  have hids : col.ids.length = col.metadatas.length := by omega
  have hdocs : col.documents.length = col.metadatas.length := by omega
  have hembs : col.embeddings.length = col.metadatas.length := by omega
  have hm : (deleteDocumentCol col docId).1.metadatas =
      col.metadatas.filter (fun m => !matchesDoc docId m) :=
    removeDescIdx_idxsWhere_self (matchesDoc docId) col.metadatas
  have hd : (deleteDocumentCol col docId).1.documents =
      ((col.documents.zip col.metadatas).filter (fun q => !matchesDoc docId q.2)).map Prod.fst :=
    removeDescIdx_idxsWhere_zip (matchesDoc docId) col.metadatas col.documents hdocs
  refine ⟨rfl, ?_, ?_, hm,
    removeDescIdx_idxsWhere_zip (matchesDoc docId) col.metadatas col.ids hids, hd,
    removeDescIdx_idxsWhere_zip (matchesDoc docId) col.metadatas col.embeddings hembs⟩
  · rw [List.forall_iff_forall_mem]
    intro m hmem
    rw [hm] at hmem
    have := List.of_mem_filter hmem
    simpa [matchesDoc] using this
  · show (deleteDocumentCol col docId).1.documents.length + _ = col.documents.length
    rw [hd, filter_zip_length (matchesDoc docId) col.documents col.metadatas hdocs, hdocs]
    exact length_filter_compl (matchesDoc docId) col.metadatas



theorem delete_c7_witness : WF col2 ∧ delSpec col2 1 :=
  ⟨⟨rfl, rfl, rfl⟩, delete_c7_spec col2 1 ⟨rfl, rfl, rfl⟩⟩

/-! ### C3: the equal-length invariant is preserved by every operation -/

theorem WF_empty : WF emptyCollection := ⟨rfl, rfl, rfl⟩

theorem WFStore_update {s : Store} {c : Collection} (k : String) (hs : WFStore s) (hc : WF c) :
    WFStore (updateStore s k c) := by
  intro nm col h
  unfold updateStore at h
  by_cases hn : nm = k
  · rw [if_pos hn] at h
    cases h
    exact hc
  · rw [if_neg hn] at h
    exact hs nm col h

theorem WFStore_getOrCreate {s : Store} (u : Nat) (hs : WFStore s) :
    WFStore (getOrCreateCollection s u).2 := by
  unfold getOrCreateCollection
  cases s (collectionName u) with
  | none => exact WFStore_update _ hs WF_empty
  | some c => exact hs

theorem WF_lookup_getOrCreate {s : Store} (u : Nat) (hs : WFStore s) :
    WF (((getOrCreateCollection s u).2 (getOrCreateCollection s u).1).getD emptyCollection) := by
  obtain ⟨col, hcol⟩ := getOrCreate_lookup_some s u
  rw [getOrCreate_fst, hcol, Option.getD_some]
  exact WFStore_getOrCreate u hs _ _ hcol

theorem WF_addChunksCol {col : Collection} (embed : List Char → List ℝ) (docId : Nat)
    (chunks : List Chunk) (filename : String) (subject : Option String) (hc : WF col) :
    WF (addChunksCol embed docId chunks filename subject col) := by
  induction chunks generalizing col with
  | nil => exact hc
  | cons c rest ih =>
      obtain ⟨h1, h2, h3⟩ := hc
      rw [addChunksCol]
      by_cases h : chunkId docId c ∈ col.ids
      · rw [if_pos h]
        exact ih ⟨h1, h2, h3⟩
      · rw [if_neg h]
        refine ih ⟨?_, ?_, ?_⟩ <;>
          simp only [List.length_append, List.length_cons, List.length_nil] <;> omega

theorem WF_addChunksColExc {col : Collection} (embed : List Char → Option (List ℝ)) (docId : Nat)
    (chunks : List Chunk) (filename : String) (subject : Option String) (hc : WF col) :
    WF (addChunksColExc embed docId chunks filename subject col) := by
  induction chunks generalizing col with
  | nil => exact hc
  | cons c rest ih =>
      obtain ⟨h1, h2, h3⟩ := hc
      rw [addChunksColExc]
      by_cases h : chunkId docId c ∈ col.ids
      · rw [if_pos h]
        exact ih ⟨h1, h2, h3⟩
      · rw [if_neg h]
        cases embed c.text with
        | none => exact ⟨h1, h2, h3⟩
        | some v =>
            refine ih ⟨?_, ?_, ?_⟩ <;>
              simp only [List.length_append, List.length_cons, List.length_nil] <;> omega

theorem removeDescIdx_length_eq {l₁ : List α} {l₂ : List β} (idxs : List Nat)
    (h : l₁.length = l₂.length) :
    (removeDescIdx l₁ idxs).length = (removeDescIdx l₂ idxs).length := by
  induction idxs with
  | nil => exact h
  | cons i rest ih =>
      rw [removeDescIdx_cons, removeDescIdx_cons, List.length_eraseIdx, List.length_eraseIdx, ih]

theorem WF_deleteDocumentCol {col : Collection} (docId : Nat) (hc : WF col) :
    WF (deleteDocumentCol col docId).1 := by
  obtain ⟨h1, h2, h3⟩ := hc
  exact ⟨removeDescIdx_length_eq _ h1, removeDescIdx_length_eq _ h2, removeDescIdx_length_eq _ h3⟩

/-- C3: confirmed — every operation of the store preserves the invariant that
the four parallel arrays of every collection have equal length: collection
creation, chunk ingestion (also when the embedding call raises mid-batch,
modelled by `addChunksColExc` with a fallible provider), document deletion,
search (whose only mutation is collection creation), and stats. -/
theorem store_c3_invariant_preserved (embed : List Char → List ℝ)
    (embedE : List Char → Option (List ℝ)) (s : Store) (u docId : Nat) (chunks : List Chunk)
    (filename : String) (subject : Option String) (q : List Char) (n : Nat)
    (subjF : Option String) (col : Collection) (hs : WFStore s) (hcol : WF col) :
    WFStore (getOrCreateCollection s u).2 ∧
    WFStore (addDocumentChunks embed s u docId chunks filename subject).1 ∧
    WF (addChunksColExc embedE docId chunks filename subject col) ∧
    WFStore (deleteDocument s u docId).1 ∧
    WFStore (searchStore embed s u q n subjF).2 ∧
    WFStore (getCollectionStats s u).1 := by
  refine ⟨WFStore_getOrCreate u hs, ?_, WF_addChunksColExc embedE docId chunks filename subject hcol,
    ?_, WFStore_getOrCreate u hs, WFStore_getOrCreate u hs⟩
  · rw [addDocumentChunks_fst]
    refine WFStore_update _ (WFStore_getOrCreate u hs) ?_
    refine WF_addChunksCol embed docId chunks filename subject ?_
    have := WF_lookup_getOrCreate u hs
    rwa [getOrCreate_fst] at this
  · show WFStore (updateStore (getOrCreateCollection s u).2 (getOrCreateCollection s u).1 _)
    rw [getOrCreate_fst]
    refine WFStore_update _ (WFStore_getOrCreate u hs) ?_
    refine WF_deleteDocumentCol docId ?_
    have := WF_lookup_getOrCreate u hs
    rwa [getOrCreate_fst] at this

theorem store_c3_invariant_witness :
    WFStore store0 ∧ WF emptyCollection ∧
    (WFStore (getOrCreateCollection store0 1).2 ∧
      WFStore (addDocumentChunks embed0 store0 1 1 chunks0 "f" none).1 ∧
      WF (addChunksColExc (fun _ => none) 1 chunks0 "f" none emptyCollection) ∧
      WFStore (deleteDocument store0 1 1).1 ∧
      WFStore (searchStore embed0 store0 1 ['q'] 5 none).2 ∧
      WFStore (getCollectionStats store0 1).1) := by
  have hs : WFStore store0 := fun nm col h => by cases h
  exact ⟨hs, WF_empty,
    store_c3_invariant_preserved embed0 (fun _ => none) store0 1 1 chunks0 "f" none ['q'] 5 none
      emptyCollection hs WF_empty⟩

/-! ### C10: totality of the cosine-similarity comparator -/

/-- C10: confirmed — `_cosine_similarity` is a total function: it returns `0`
on mismatched vector lengths, `0` when either norm is zero, and
`dot / (norm1 * norm2)` otherwise (so it never divides by zero). -/
theorem cosine_c10_total (v1 v2 : List ℝ) :
    (v1.length ≠ v2.length → cosineSimilarity v1 v2 = 0) ∧
    (normVal v1 = 0 ∨ normVal v2 = 0 → cosineSimilarity v1 v2 = 0) ∧
    (v1.length = v2.length → normVal v1 ≠ 0 → normVal v2 ≠ 0 →
      cosineSimilarity v1 v2 = dotProduct v1 v2 / (normVal v1 * normVal v2)) := by
  refine ⟨fun h => ?_, fun h => ?_, fun h h1 h2 => ?_⟩
  · rw [cosineSimilarity, if_pos h]
  · rw [cosineSimilarity]
    by_cases hl : v1.length ≠ v2.length
    · rw [if_pos hl]
    · rw [if_neg hl, if_pos h]
  · rw [cosineSimilarity, if_neg (by simp [h]), if_neg (by simp [h1, h2])]

theorem cosine_c10_witness :
    (([1] : List ℝ).length ≠ ([0, 1] : List ℝ).length ∧ cosineSimilarity [1] [0, 1] = 0) ∧
    (normVal [(0 : ℝ)] = 0 ∧ cosineSimilarity [(0 : ℝ)] [0] = 0) ∧
    (([1] : List ℝ).length = ([1] : List ℝ).length ∧ normVal [(1 : ℝ)] ≠ 0 ∧
      cosineSimilarity [(1 : ℝ)] [1] = dotProduct [1] [1] / (normVal [1] * normVal [1])) := by
  have hlen : ([1] : List ℝ).length ≠ ([0, 1] : List ℝ).length := by simp
  have h0 : normVal [(0 : ℝ)] = 0 := by simp [normVal]
  have h1 : normVal [(1 : ℝ)] = 1 := by simp [normVal]
  exact ⟨⟨hlen, (cosine_c10_total [1] [0, 1]).1 hlen⟩,
    ⟨h0, (cosine_c10_total [(0 : ℝ)] [0]).2.1 (Or.inl h0)⟩,
    ⟨rfl, by rw [h1]; exact one_ne_zero,
      (cosine_c10_total [(1 : ℝ)] [1]).2.2 rfl (by rw [h1]; exact one_ne_zero)
        (by rw [h1]; exact one_ne_zero)⟩⟩

/-! ### C6: empty collection and embedding failure yield [] -/

/-- C6: confirmed — search of a collection with no documents returns the empty
list; a query-embedding failure (the `except` path, modelled by `none`) also
returns the empty list; and at the store level, searching a tenant with no
collection yet creates an empty one and returns the empty list. -/
theorem search_c6_empty_and_failure (embedQ : Option (List ℝ)) (col : Collection) (n : Nat)
    (subjF : Option String) (embed : List Char → List ℝ) (s : Store) (u : Nat) (q : List Char) :
    (col.documents = [] → search embedQ col n subjF = []) ∧
    search none col n subjF = [] ∧
    (s (collectionName u) = none → (searchStore embed s u q n subjF).1 = []) := by
  refine ⟨fun h => ?_, ?_, fun h => ?_⟩
  · cases embedQ <;> simp [search, h]
  · by_cases h : col.documents.isEmpty <;> simp [search, h]
  · unfold searchStore getOrCreateCollection
    rw [h]
    simp [updateStore_self, search, emptyCollection]

theorem search_c6_witness :
    emptyCollection.documents = [] ∧
    search (some [1]) emptyCollection 5 none = [] ∧
    search none emptyCollection 5 none = [] ∧
    store0 (collectionName 3) = none ∧
    (searchStore embed0 store0 3 ['q'] 5 none).1 = [] :=
  ⟨rfl, (search_c6_empty_and_failure (some [1]) emptyCollection 5 none embed0 store0 3 ['q']).1 rfl,
    (search_c6_empty_and_failure none emptyCollection 5 none embed0 store0 3 ['q']).2.1, rfl,
    (search_c6_empty_and_failure none emptyCollection 5 none embed0 store0 3 ['q']).2.2 rfl⟩

/-! ### C5 and C9: ordering, stability and scores of search results -/

theorem mem_insertDesc {a x : Cand} {l : List Cand} : a ∈ insertDesc x l ↔ a = x ∨ a ∈ l := by
  induction l with
  | nil => simp [insertDesc]
  | cons y ys ih =>
      rw [insertDesc]
      by_cases hlt : x.similarity < y.similarity
      · rw [if_pos hlt]
        rw [List.mem_cons, ih, List.mem_cons]
        tauto
      · rw [if_neg hlt]
        simp [List.mem_cons]

theorem mem_sortDesc {a : Cand} {l : List Cand} : a ∈ sortDesc l ↔ a ∈ l := by
  induction l with
  | nil => exact Iff.rfl
  | cons x xs ih =>
      rw [sortDesc, mem_insertDesc, ih, List.mem_cons]



theorem candRel_trans {a b c : Cand} (h1 : candRel a b) (h2 : candRel b c) : candRel a c := by
  rcases h1 with h1 | ⟨he1, hi1⟩
  · rcases h2 with h2 | ⟨he2, hi2⟩
    · exact Or.inl (lt_trans h2 h1)
    · exact Or.inl (by rw [he2]; exact h1)
  · rcases h2 with h2 | ⟨he2, hi2⟩
    · exact Or.inl (by rw [← he1]; exact h2)
    · exact Or.inr ⟨he2.trans he1, lt_trans hi1 hi2⟩

theorem pairwise_insertDesc {x : Cand} {l : List Cand} (hl : List.Pairwise candRel l)
    (hx : ∀ y ∈ l, x.index < y.index) : List.Pairwise candRel (insertDesc x l) := by
  induction l with
  | nil => simp [insertDesc]
  | cons y ys ih =>
      rw [List.pairwise_cons] at hl
      obtain ⟨hy, hys⟩ := hl
      rw [insertDesc]
      by_cases hlt : x.similarity < y.similarity
      · rw [if_pos hlt, List.pairwise_cons]
        refine ⟨?_, ih hys fun z hz => hx z (List.mem_cons_of_mem y hz)⟩
        intro z hz
        rcases mem_insertDesc.mp hz with rfl | hz'
        · exact Or.inl hlt
        · exact hy z hz'
      · rw [if_neg hlt, List.pairwise_cons]
        have hxy : candRel x y := by
          rcases lt_or_eq_of_le (not_lt.mp hlt) with h | h
          · exact Or.inl h
          · exact Or.inr ⟨h, hx y (List.mem_cons_self y ys)⟩
        refine ⟨?_, List.pairwise_cons.mpr ⟨hy, hys⟩⟩
        intro z hz
        rcases List.mem_cons.mp hz with rfl | hz'
        · exact hxy
        · exact candRel_trans hxy (hy z hz')

theorem pairwise_sortDesc {l : List Cand}
    (h : List.Pairwise (fun a b : Cand => a.index < b.index) l) :
    List.Pairwise candRel (sortDesc l) := by
  induction l with
  | nil => exact List.Pairwise.nil
  | cons x xs ih =>
      rw [List.pairwise_cons] at h
      rw [sortDesc]
      exact pairwise_insertDesc (ih h.2) fun y hy => h.1 y (mem_sortDesc.mp hy)

theorem candAt_eq_some {q : List ℝ} {col : Collection} {subjF : Option String} {i : Nat}
    {c : Cand} (h : candAt q col subjF i = some c) :
    c.index = i ∧ c.similarity = cosineSimilarity q (col.embeddings.getD i []) ∧
      c.text = col.documents.getD i [] ∧ c.metadata = col.metadatas.getD i ⟨"", "", "", 0⟩ := by
  rw [candAt] at h
  split at h
  · cases h
  · cases h
    exact ⟨rfl, rfl, rfl, rfl⟩

theorem candidatesFor_pairwise_index (q : List ℝ) (col : Collection) (subjF : Option String) :
    List.Pairwise (fun a b : Cand => a.index < b.index) (candidatesFor q col subjF) := by
  rw [candidatesFor, List.pairwise_filterMap]
  refine (List.pairwise_lt_range _).imp ?_
  intro i j hij b hb b' hb'
  rw [(candAt_eq_some hb).1, (candAt_eq_some hb').1]
  exact hij

theorem pairwise_candRel_ranked (q : List ℝ) (col : Collection) (subjF : Option String) :
    List.Pairwise candRel (rankedCandidates q col subjF) :=
  pairwise_sortDesc (candidatesFor_pairwise_index q col subjF)

/-- C5: confirmed — `search` returns at most `n_results` results, in
non-increasing `relevance_score` order, and the underlying ranked candidate
list is stable: candidates with equal similarity appear in strictly increasing
index order, i.e. in the order of their insertion into the collection. -/
theorem search_c5_ordered (embedQ : Option (List ℝ)) (col : Collection) (n : Nat)
    (subjF : Option String) (q : List ℝ) :
    (search embedQ col n subjF).length ≤ n ∧
    List.Pairwise (fun r1 r2 : SearchResult => r2.relevance_score ≤ r1.relevance_score)
      (search embedQ col n subjF) ∧
    List.Pairwise (fun a b : Cand => a.similarity = b.similarity → a.index < b.index)
      (rankedCandidates q col subjF) := by
  refine ⟨?_, ?_, ?_⟩
  · cases embedQ with
    | none =>
        rw [search]
        split <;> simp
    | some q' =>
        rw [search]
        split
        · simp
        · rw [List.length_map]
          exact List.length_take_le n _
  · cases embedQ with
    | none =>
        rw [search]
        split <;> exact List.Pairwise.nil
    | some q' =>
        rw [search]
        split
        · exact List.Pairwise.nil
        · refine List.Pairwise.map formatResult (fun a b hab => hab) ?_
          refine List.Pairwise.sublist (List.take_sublist n _) ?_
          refine (pairwise_candRel_ranked q' col subjF).imp ?_
          intro a b hab
          rcases hab with h | ⟨h, _⟩
          · exact le_of_lt h
          · exact le_of_eq h
  · refine (pairwise_candRel_ranked q col subjF).imp ?_
    intro a b hab heq
    rcases hab with h | ⟨_, hi⟩
    · rw [heq] at h
      exact absurd h (lt_irrefl _)
    · exact hi

/-- C9: confirmed — every returned result has `relevance_score = 1 − distance`,
and both are derived from the cosine similarity between the query embedding
and the stored embedding of that result:
`distance = 1 − cosine_similarity`, `relevance_score = cosine_similarity`. -/
theorem search_c9_scores (q : List ℝ) (col : Collection) (n : Nat) (subjF : Option String) :
    List.Forall
      (fun r : SearchResult =>
        r.relevance_score = 1 - r.distance ∧
        ∃ i, i < col.embeddings.length ∧
          r.relevance_score = cosineSimilarity q (col.embeddings.getD i []) ∧
          r.distance = 1 - cosineSimilarity q (col.embeddings.getD i []))
      (search (some q) col n subjF) := by
  rw [List.forall_iff_forall_mem]
  intro r hr
  rw [search] at hr
  split at hr
  · exact absurd hr (List.not_mem_nil r)
  · obtain ⟨c, hc, rfl⟩ := List.mem_map.mp hr
    have hc' : c ∈ rankedCandidates q col subjF := List.take_subset n _ hc
    rw [rankedCandidates, mem_sortDesc, candidatesFor] at hc'
    obtain ⟨i, hi, hci⟩ := List.mem_filterMap.mp hc'
    obtain ⟨hidx, hsim, htext, hmeta⟩ := candAt_eq_some hci
    rw [List.mem_range] at hi
    refine ⟨by show c.similarity = 1 - (1 - c.similarity); ring, i, hi, ?_, ?_⟩
    · exact hsim
    · show 1 - c.similarity = _
      rw [hsim]

/-! ### C4: chunk coverage -/



theorem noSep_no_occurrence {text : List Char} (htext : containsSep text = false)
    {s : List Char} (hs : s ∈ sepList) (j : Nat)
    (heq : (text.drop j).take s.length = s) : False := by
  have hslen : s.length = 2 := by
    fin_cases hs <;> rfl
  by_cases hj : j < text.length + 1
  · rw [containsSep, List.any_eq_false] at htext
    have h1 := htext j (List.mem_range.mpr hj)
    rw [Bool.not_eq_true, List.any_eq_false] at h1
    exact h1 s hs (beq_of_eq heq)
  · have hd : text.drop j = [] := List.drop_eq_nil_of_le (by omega)
    rw [hd, List.take_nil] at heq
    rw [← heq] at hslen
    simp at hslen

theorem rfind_sub_none {text : List Char} (htext : containsSep text = false)
    {s : List Char} (hs : s ∈ sepList) (A B : Nat) :
    rfind s ((text.take B).drop A) = none := by
  rw [rfind, List.find?_eq_none]
  intro i _
  intro hpred
  have heq : (((text.take B).drop A).drop i).take s.length = s := eq_of_beq hpred
  rw [List.drop_drop, List.drop_take, List.take_take] at heq
  have hlen := congrArg List.length heq
  rw [List.length_take, List.length_drop] at hlen
  have hLK : s.length ≤ B - (A + i) := by omega
  rw [min_eq_left hLK] at heq
  exact noSep_no_occurrence htext hs (A + i) heq

theorem findSep_eq_none_of_all {seps : List (List Char)} {w : List Char}
    (h : ∀ s ∈ seps, rfind s w = none) : findSep seps w = none := by
  induction seps with
  | nil => rfl
  | cons s rest ih =>
      rw [findSep, h s (List.mem_cons_self s rest)]
      exact ih fun s' hs' => h s' (List.mem_cons_of_mem s hs')

theorem findSep_slice_none {text : List Char} (htext : containsSep text = false) (A B : Nat) :
    findSep sepList ((text.take B).drop A) = none :=
  findSep_eq_none_of_all fun s hs => rfind_sub_none htext hs A B

theorem pyIdx_ofNat (n a : Nat) : pyIdx n (a : Int) = min a n := by
  rw [pyIdx, if_neg (by omega : ¬((a : Int) < 0)), Int.toNat_ofNat]

theorem pySlice_ofNat (text : List Char) (a b : Nat) :
    pySlice text (a : Int) (b : Int) =
      (text.take (min b text.length)).drop (min a text.length) := by
  rw [pySlice, pyIdx_ofNat, pyIdx_ofNat]

theorem chunkEnd_noSep {text : List Char} (htext : containsSep text = false) (cs start : Nat) :
    chunkEnd text cs (start : Int) = (start : Int) + (cs : Int) := by
  rw [chunkEnd]
  split
  · rw [show (start : Int) + (cs : Int) = ((start + cs : Nat) : Int) by push_cast; ring,
      pySlice_ofNat, findSep_slice_none htext]
  · rfl

theorem all_space_of_pyStrip_nil {l : List Char} (h : pyStrip l = []) :
    ∀ c ∈ l, isPySpace c := by
  rw [pyStrip, List.reverse_eq_nil_iff, List.dropWhile_eq_nil_iff] at h
  intro c hc
  by_cases hc2 : c ∈ l.dropWhile isPySpace
  · exact h c (List.mem_reverse.mpr hc2)
  · have hsplit : l.takeWhile isPySpace ++ l.dropWhile isPySpace = l :=
      List.takeWhile_append_dropWhile _ _
    rw [← hsplit] at hc
    rcases List.mem_append.mp hc with hc' | hc'
    · exact List.mem_takeWhile_imp hc'
    · exact absurd hc' hc2

theorem getD_mem_slice {text : List Char} {A B p : Nat} (hap : A ≤ p) (hpb : p < B)
    (hpl : p < text.length) : text.getD p ' ' ∈ (text.take B).drop A := by
  have hlen : p - A < ((text.take B).drop A).length := by
    rw [List.length_drop, List.length_take]
    omega
  have hx : A + (p - A) = p := by omega
  have hval : ((text.take B).drop A)[p - A] = text.getD p ' ' := by
    rw [List.getElem_drop, List.getElem_take, List.getD_eq_getElem text ' ' hpl]
    simp only [hx]
  rw [← hval]
  exact List.getElem_mem hlen

/-- One unfolding of the chunking loop. -/
theorem chunkLoop_succ (text : List Char) (cs ov fuel : Nat) (start : Int) (acc : List Chunk) :
    chunkLoop text cs ov (fuel + 1) start acc =
      if start < (text.length : Int) then
        chunkLoop text cs ov fuel
          (if chunkEnd text cs start < (text.length : Int) then chunkEnd text cs start - (ov : Int)
           else (text.length : Int))
          (if pyStrip (pySlice text start (chunkEnd text cs start)) = [] then acc
           else acc ++ [⟨pyStrip (pySlice text start (chunkEnd text cs start)), start,
             chunkEnd text cs start, acc.length⟩])
      else some acc := rfl

/-- The loop invariant for separator-free text: the loop terminates within the
remaining fuel, every emitted chunk is a full aligned window, and every
non-whitespace position below the current offset is already covered. -/
theorem chunkLoop_noSep_total (text : List Char) (cs ov : Nat) (hov : ov < cs)
    (htext : containsSep text = false) :
    ∀ fuel (start : Nat) (acc : List Chunk),
      1 ≤ fuel → text.length + 2 ≤ start + fuel →
      ((cs - ov) ∣ start ∨ text.length ≤ start) →
      (∀ c ∈ acc, goodChunk cs ov c) →
      (∀ p : Nat, p < text.length → p < start → ¬isPySpace (text.getD p ' ') →
        ∃ c ∈ acc, c.start_char ≤ (p : Int) ∧ (p : Int) < c.end_char) →
      ∃ chunks, chunkLoop text cs ov fuel (start : Int) acc = some chunks ∧
        (∀ c ∈ chunks, goodChunk cs ov c) ∧ coversNonSpace text chunks := by
  intro fuel
  induction fuel with
  | zero => intro start acc h1 _ _ _ _; exact absurd h1 (by omega)
  | succ n ih =>
      intro start acc _ hbound hdvd hgood hcov
      rw [chunkLoop_succ]
      by_cases hlt : start < text.length
      · rw [if_pos (by exact_mod_cast hlt : (start : Int) < (text.length : Int))]
        have hE : chunkEnd text cs (start : Int) = ((start + cs : Nat) : Int) := by
          rw [chunkEnd_noSep htext]
          push_cast
          ring
        rw [hE]
        have hdvd' : (cs - ov) ∣ start := by
          rcases hdvd with h | h
          · exact h
          · exact absurd hlt (not_lt.mpr h)
        have hslice : pySlice text (start : Int) ((start + cs : Nat) : Int) =
            (text.take (min (start + cs) text.length)).drop (min start text.length) :=
          pySlice_ofNat text start (start + cs)
        by_cases hend : ((start + cs : Nat) : Int) < (text.length : Int)
        · rw [if_pos hend]
          have hendN : start + cs < text.length := by exact_mod_cast hend
          have hcast : ((start + cs : Nat) : Int) - (ov : Int) =
              ((start + (cs - ov) : Nat) : Int) := by
            push_cast [Nat.cast_sub (le_of_lt hov)]
            ring
          rw [hcast]
          by_cases hcont : pyStrip (pySlice text (start : Int) ((start + cs : Nat) : Int)) = []
          · rw [if_pos hcont]
            refine ih (start + (cs - ov)) acc (by omega) (by omega)
              (Or.inl (dvd_add hdvd' dvd_rfl)) hgood ?_
            intro p hp hps hws
            by_cases hpo : p < start
            · exact hcov p hp hpo hws
            · exfalso
              apply hws
              have hmem : text.getD p ' ' ∈
                  (text.take (min (start + cs) text.length)).drop (min start text.length) :=
                getD_mem_slice (by omega) (by omega) hp
              rw [hslice] at hcont
              exact all_space_of_pyStrip_nil hcont _ hmem
          · rw [if_neg hcont]
            refine ih (start + (cs - ov)) _ (by omega) (by omega)
              (Or.inl (dvd_add hdvd' dvd_rfl)) ?_ ?_
            · intro c hc
              rcases List.mem_append.mp hc with hc' | hc'
              · exact hgood c hc'
              · rw [List.mem_singleton] at hc'
                subst hc'
                have hspan : ((start + cs : Nat) : Int) = (start : Int) + (cs : Int) := by
                  push_cast
                  ring
                refine ⟨hspan, Int.ofNat_nonneg start, ?_⟩
                show (cs - ov) ∣ ((start : Int)).toNat
                rw [Int.toNat_ofNat]
                exact hdvd'
            · intro p hp hps hws
              by_cases hpo : p < start
              · obtain ⟨c, hc, hcc⟩ := hcov p hp hpo hws
                exact ⟨c, List.mem_append_left _ hc, hcc⟩
              · refine ⟨_, List.mem_append_right _ (List.mem_singleton.mpr rfl), ?_, ?_⟩
                · show (start : Int) ≤ (p : Int)
                  omega
                · show (p : Int) < ((start + cs : Nat) : Int)
                  omega
        · rw [if_neg hend]
          have hendN : text.length ≤ start + cs := by
            have := not_lt.mp hend
            exact_mod_cast this
          by_cases hcont : pyStrip (pySlice text (start : Int) ((start + cs : Nat) : Int)) = []
          · rw [if_pos hcont]
            refine ih text.length acc (by omega) (by omega) (Or.inr le_rfl) hgood ?_
            intro p hp hps hws
            by_cases hpo : p < start
            · exact hcov p hp hpo hws
            · exfalso
              apply hws
              have hmem : text.getD p ' ' ∈
                  (text.take (min (start + cs) text.length)).drop (min start text.length) :=
                getD_mem_slice (by omega) (by omega) hp
              rw [hslice] at hcont
              exact all_space_of_pyStrip_nil hcont _ hmem
          · rw [if_neg hcont]
            refine ih text.length _ (by omega) (by omega) (Or.inr le_rfl) ?_ ?_
            · intro c hc
              rcases List.mem_append.mp hc with hc' | hc'
              · exact hgood c hc'
              · rw [List.mem_singleton] at hc'
                subst hc'
                have hspan : ((start + cs : Nat) : Int) = (start : Int) + (cs : Int) := by
                  push_cast
                  ring
                refine ⟨hspan, Int.ofNat_nonneg start, ?_⟩
                show (cs - ov) ∣ ((start : Int)).toNat
                rw [Int.toNat_ofNat]
                exact hdvd'
            · intro p hp hps hws
              by_cases hpo : p < start
              · obtain ⟨c, hc, hcc⟩ := hcov p hp hpo hws
                exact ⟨c, List.mem_append_left _ hc, hcc⟩
              · refine ⟨_, List.mem_append_right _ (List.mem_singleton.mpr rfl), ?_, ?_⟩
                · show (start : Int) ≤ (p : Int)
                  omega
                · show (p : Int) < ((start + cs : Nat) : Int)
                  omega
      · rw [if_neg (by exact_mod_cast hlt : ¬((start : Int) < (text.length : Int)))]
        exact ⟨acc, rfl, hgood, fun p hp hws => hcov p hp (by omega) hws⟩

/-- C4, amended: for a text containing none of the separators `'. '`, `'.\n'`,
`'\n\n'` and any configuration with `target_size > 0`, `overlap < target_size`,
chunking terminates and the emitted chunks cover every non-whitespace
character position of the text; positions outside all chunk spans are
whitespace inside skipped (fully-blank) windows. Every chunk's span is exactly
`[start, start + target_size)` with `start` a non-negative multiple of
`target_size − overlap`, so chunks from adjacent windows overlap in exactly
`overlap` positions. -/
theorem chunk_c4_cover_amended (text : List Char) (cs ov : Nat) (hcs : 0 < cs) (hov : ov < cs)
    (htext : containsSep text = false) :
    ∃ chunks, chunk_text text cs ov = some chunks ∧
      (∀ c ∈ chunks, goodChunk cs ov c) ∧ coversNonSpace text chunks := by
  have h := chunkLoop_noSep_total text cs ov hov htext (text.length + 2) 0 []
    (by omega) (by omega) (Or.inl (dvd_zero _)) (fun c hc => absurd hc (List.not_mem_nil c))
    (fun p _ hp _ => absurd hp (by omega))
  rw [Nat.cast_zero] at h
  obtain ⟨chunks, hc, hgood, hcov⟩ := h
  exact ⟨chunks, hc, hgood, hcov⟩



/-- C4, counterexample: with `text = "ab  cd"`, `target_size = 2`,
`overlap = 0` (non-empty text, `overlap < target_size`), the run terminates
with chunks spanning `[0, 2)` and `[4, 6)`: character position 2 of the text
lies in no emitted chunk's span, so the claimed gap-free coverage by emitted
chunks fails (the all-blank window `[2, 4)` was skipped). -/
theorem chunk_c4_coverage_counterexample :
    gapText ≠ [] ∧ (0 : Nat) < 2 ∧
    chunk_text gapText 2 0 =
      some [⟨['a', 'b'], 0, 2, 0⟩, ⟨['c', 'd'], 4, 6, 1⟩] ∧
    (2 : Nat) < gapText.length ∧
    ¬∃ c ∈ [(⟨['a', 'b'], 0, 2, 0⟩ : Chunk), ⟨['c', 'd'], 4, 6, 1⟩],
        c.start_char ≤ (2 : Int) ∧ (2 : Int) < c.end_char := by
  decide



theorem chunk_c4_cover_witness :
    (0 : Nat) < 3 ∧ (2 : Nat) < 3 ∧ containsSep abcdText = false ∧
    ∃ chunks, chunk_text abcdText 3 2 = some chunks ∧
      (∀ c ∈ chunks, goodChunk 3 2 c) ∧ coversNonSpace abcdText chunks :=
  ⟨by decide, by decide, by decide,
    chunk_c4_cover_amended abcdText 3 2 (by decide) (by decide) (by decide)⟩

end StudyRAG
